import Mathlib

/-!
Shallow embedding of `src/tools/eslint/lib/util/safe-emitter.js`.

The source is a factory returning a frozen object closing over a private
registry `listeners = Object.create(null)` — a prototype-less JavaScript
object mapping event-name strings to arrays of listener functions — with
three methods:

  on(eventName, listener): push onto `listeners[eventName]`, creating the
    array (and hence the key) on first registration;
  emit(eventName, a, b, c): if the key exists, `forEach` over its array,
    calling each listener as `listener(a, b, c)`;
  eventNames(): `Object.keys(listeners)`.

Modelling decisions, all taken from the source plus ECMAScript semantics:
* the registry is an association list `List (String × List L)` in
  property-creation order with unique keys (a prototype-less object has only
  own properties, so `in` and `[...]` are plain key lookup);
* JavaScript values handed to listeners are `Option V`, with `none` playing
  `undefined` (both for omitted `emit` arguments and for the receiver of the
  plain call `listener(a, b, c)`);
* a listener's synchronous behaviour is a parameter: for the invocation and
  error-propagation claims it is `call : L → … → Except E Unit`
  (`Except.error` models `throw`, which aborts `forEach` and propagates);
  for the reentrancy claim it is `beh : L → List (String × L)`, the `on`
  registrations the listener performs when invoked;
* `Object.keys` follows OrdinaryOwnPropertyKeys: keys that are canonical
  array indices (canonical decimal numerals of n < 2^32 - 1) come first in
  ascending numeric order, then the remaining string keys in creation order.
-/

set_option linter.unusedVariables false

/-- A single listener invocation record produced during `emit`. `thisVal` is
the receiver the listener is called with: the source invokes listeners as
`listener(a, b, c)` — a plain call, no member access — so the receiver is
`undefined`, modelled as `none`. Arguments omitted at the `emit` call site
are likewise `undefined`/`none`. -/
structure Invocation (V L : Type) where
  listener : L
  thisVal : Option V
  arg1 : Option V
  arg2 : Option V
  arg3 : Option V
deriving DecidableEq

/-- The emitter state: the private `listeners` registry created by
`Object.create(null)`, as an association list in property-creation order. -/
structure SafeEmitter (L : Type) where
  listeners : List (String × List L)
deriving DecidableEq

/-- A freshly constructed emitter: `Object.create(null)` has no keys. -/
def emptyEmitter (L : Type) : SafeEmitter L :=
  ⟨[]⟩

/-- Own-property lookup: `eventName in listeners` succeeds exactly when this
returns `some`, and `listeners[eventName]` is the returned array. -/
def lookupEvent {L : Type} : List (String × List L) → String → Option (List L)
  | [], _ => none
  | (k, fs) :: rest, e => if k = e then some fs else lookupEvent rest e

/-- The listener sequence currently registered for `e` (empty when the key is
absent). -/
def SafeEmitter.lookupList {L : Type} (s : SafeEmitter L) (e : String) : List L :=
  (lookupEvent s.listeners e).getD []

/-- `on`: when the key exists, `listeners[eventName].push(listener)` appends
in place; otherwise `listeners[eventName] = [listener]` creates the key, last
in property-creation order. -/
def appendListener {L : Type} : List (String × List L) → String → L → List (String × List L)
  | [], e, f => [(e, [f])]
  | (k, fs) :: rest, e, f =>
    if k = e then (k, fs ++ [f]) :: rest else (k, fs) :: appendListener rest e f

/-- The `on(eventName, listener)` method. -/
def SafeEmitter.on {L : Type} (s : SafeEmitter L) (eventName : String) (listener : L) :
    SafeEmitter L :=
  ⟨appendListener s.listeners eventName listener⟩

/-- `listeners[eventName].forEach(listener => listener(a, b, c))` where each
listener's synchronous outcome is given by `call` (normal return or throw).
Produces the invocation records in call order and the propagated error, if
any: a throw aborts the iteration, so later listeners produce no record. -/
def runListeners {V E L : Type} (call : L → Option V → Option V → Option V → Except E Unit) :
    List L → Option V → Option V → Option V → List (Invocation V L) × Option E
  | [], _, _, _ => ([], none)
  | f :: rest, a, b, c =>
    match call f a b c with
    | Except.error err => ([⟨f, none, a, b, c⟩], some err)
    | Except.ok _ =>
      let r := runListeners call rest a b c
      (⟨f, none, a, b, c⟩ :: r.1, r.2)

/-- The `emit(eventName, a, b, c)` method: a no-op when the key is absent,
otherwise `forEach` over the registered array. -/
def SafeEmitter.emit {V E L : Type} (s : SafeEmitter L)
    (call : L → Option V → Option V → Option V → Except E Unit)
    (eventName : String) (a b c : Option V) : List (Invocation V L) × Option E :=
  match lookupEvent s.listeners eventName with
  | some fs => runListeners call fs a b c
  | none => ([], none)

/-- Listener behaviour that always returns normally. -/
def noThrow (V E L : Type) : L → Option V → Option V → Option V → Except E Unit :=
  fun _ _ _ _ => Except.ok ()

/-- A batch of `on(e, ·)` registrations, performed in list order. -/
def SafeEmitter.registerAll {L : Type} (s : SafeEmitter L) (e : String) (fs : List L) :
    SafeEmitter L :=
  fs.foldl (fun st f => st.on e f) s

/-- The `on` registrations a listener performs during its invocation, applied
in order. -/
def applyRegistrations {L : Type} (regs : List (String × L)) (s : SafeEmitter L) :
    SafeEmitter L :=
  regs.foldl (fun st p => st.on p.1 p.2) s

/-- The `emit(eventName)` method when each listener's synchronous effect is to
perform further `on` registrations (`beh f` lists them). `forEach` captures
the array length on entry and `on` only appends, so the listeners invoked are
exactly those present when the emit began; registrations made by invoked
listeners take effect on the state. Returns the final state and the invoked
listeners in call order. -/
def SafeEmitter.emitLive {L : Type} (s : SafeEmitter L) (beh : L → List (String × L))
    (eventName : String) : SafeEmitter L × List L :=
  match lookupEvent s.listeners eventName with
  | none => (s, [])
  | some fs =>
    fs.foldl (fun acc f => (applyRegistrations (beh f) acc.1, acc.2 ++ [f])) (s, [])

/-- `some d` when `c` is the digit `d`. -/
def charDigit? (c : Char) : Option Nat :=
  if 48 ≤ c.toNat ∧ c.toNat ≤ 57 then some (c.toNat - 48) else none

/-- Parses remaining digits onto the accumulator; fails on a non-digit. -/
def parseDigitsFrom : List Char → Nat → Option Nat
  | [], acc => some acc
  | c :: rest, acc =>
    match charDigit? c with
    | none => none
    | some d => parseDigitsFrom rest (10 * acc + d)

/-- Canonical decimal numeral parser: `some n` exactly when the characters
are the decimal digits of `n` with no leading zero (`"0"` parses; `""`,
`"00"`, `"01"`, `"x"` do not). -/
def parseCanonicalNat : List Char → Option Nat
  | [] => none
  | [c] => charDigit? c
  | c :: rest =>
    match charDigit? c with
    | none => none
    | some 0 => none
    | some d => parseDigitsFrom rest d

/-- ECMAScript array-index keys: canonical numerals with value below
2^32 - 1. OrdinaryOwnPropertyKeys enumerates these before all other string
keys, in ascending numeric order. -/
def isArrayIndexKey (s : String) : Bool :=
  match parseCanonicalNat s.data with
  | some n => decide (n < 4294967295)
  | none => false

/-- Numeric value used to order array-index keys. -/
def keyNat (s : String) : Nat :=
  (parseCanonicalNat s.data).getD 0

/-- Ascending numeric order on array-index keys. -/
def keyLE (a b : String) : Prop :=
  keyNat a ≤ keyNat b

instance : DecidableRel keyLE :=
  fun a b => Nat.decLe _ _

instance : IsTotal String keyLE :=
  ⟨fun a b => Nat.le_total _ _⟩

instance : IsTrans String keyLE :=
  ⟨fun _ _ _ => Nat.le_trans⟩

/-- `Object.keys(listeners)`: own string-keyed properties in
OrdinaryOwnPropertyKeys order — array-index keys ascending first, then the
remaining keys in property-creation order. -/
def objectKeys {L : Type} (regs : List (String × List L)) : List String :=
  let ks := regs.map Prod.fst
  List.insertionSort keyLE (ks.filter (fun k => isArrayIndexKey k))
    ++ ks.filter (fun k => !isArrayIndexKey k)

/-- The `eventNames()` method. -/
def SafeEmitter.eventNames {L : Type} (s : SafeEmitter L) : List String :=
  objectKeys s.listeners

/-- Emitter states reachable through the public operations. `eventNames`
reads the state without modifying it, and `emit` only modifies it through
the `on` calls its listeners perform, so `on` and `emitLive` steps generate
every reachable state. -/
inductive ReachableEmitter {L : Type} : SafeEmitter L → Prop
  | empty : ReachableEmitter (emptyEmitter L)
  | registerStep (s : SafeEmitter L) (e : String) (f : L) :
      ReachableEmitter s → ReachableEmitter (s.on e f)
  | emitStep (s : SafeEmitter L) (beh : L → List (String × L)) (e : String) :
      ReachableEmitter s → ReachableEmitter ((s.emitLive beh e).1)

/-- `s'` extends `s`: keys are only ever appended (none removed, existing
relative order kept), and each event's listener sequence in `s` persists as
an initial segment of its sequence in `s'` (listeners only appended). -/
def RegistryExtends {L : Type} (s s' : SafeEmitter L) : Prop :=
  (∃ ks, s'.listeners.map Prod.fst = s.listeners.map Prod.fst ++ ks) ∧
  ∀ e, ∃ t, s'.lookupList e = s.lookupList e ++ t

theorem lookup_appendListener_self {L : Type} (regs : List (String × List L)) (e : String)
    (f : L) :
    lookupEvent (appendListener regs e f) e = some ((lookupEvent regs e).getD [] ++ [f]) := by
  induction regs with
  | nil => simp [appendListener, lookupEvent]
  | cons p rest ih =>
    obtain ⟨k, fs⟩ := p
    by_cases h : k = e
    · subst h
      simp [appendListener, lookupEvent]
    · simp [appendListener, lookupEvent, h, ih]

theorem lookup_appendListener_ne {L : Type} (regs : List (String × List L)) (e e' : String)
    (f : L) (h : e' ≠ e) :
    lookupEvent (appendListener regs e f) e' = lookupEvent regs e' := by
  have he : e ≠ e' := Ne.symm h
  induction regs with
  | nil => simp [appendListener, lookupEvent, he]
  | cons p rest ih =>
    obtain ⟨k, fs⟩ := p
    by_cases hk : k = e
    · subst hk
      simp [appendListener, lookupEvent, he]
    · simp [appendListener, lookupEvent, hk, ih]

theorem keys_appendListener {L : Type} (regs : List (String × List L)) (e : String) (f : L) :
    (appendListener regs e f).map Prod.fst
      = if (lookupEvent regs e).isSome then regs.map Prod.fst
        else regs.map Prod.fst ++ [e] := by
  induction regs with
  | nil => simp [appendListener, lookupEvent]
  | cons p rest ih =>
    obtain ⟨k, fs⟩ := p
    by_cases h : k = e
    · subst h
      simp [appendListener, lookupEvent]
    · simp [appendListener, lookupEvent, h, ih]
      by_cases hr : (lookupEvent rest e).isSome <;> simp [hr]

theorem lookupList_on_self {L : Type} (s : SafeEmitter L) (e : String) (f : L) :
    (s.on e f).lookupList e = s.lookupList e ++ [f] := by
  simp [SafeEmitter.lookupList, SafeEmitter.on, lookup_appendListener_self]

theorem lookupList_on_ne {L : Type} (s : SafeEmitter L) (e e' : String) (f : L)
    (h : e' ≠ e) :
    (s.on e f).lookupList e' = s.lookupList e' := by
  simp [SafeEmitter.lookupList, SafeEmitter.on, lookup_appendListener_ne _ _ _ _ h]

theorem lookup_on_self {L : Type} (s : SafeEmitter L) (e : String) (f : L) :
    lookupEvent (s.on e f).listeners e = some (s.lookupList e ++ [f]) := by
  simp [SafeEmitter.on, SafeEmitter.lookupList, lookup_appendListener_self]

theorem registerAll_nil {L : Type} (s : SafeEmitter L) (e : String) :
    s.registerAll e [] = s :=
  rfl

theorem registerAll_cons {L : Type} (s : SafeEmitter L) (e : String) (f : L) (fs : List L) :
    s.registerAll e (f :: fs) = (s.on e f).registerAll e fs :=
  rfl

theorem lookup_registerAll {L : Type} (s : SafeEmitter L) (e : String) (fs : List L)
    (h : (lookupEvent s.listeners e).isSome) :
    lookupEvent (s.registerAll e fs).listeners e = some (s.lookupList e ++ fs) := by
  induction fs generalizing s with
  | nil =>
    obtain ⟨l, hl⟩ := Option.isSome_iff_exists.mp h
    simp [registerAll_nil, hl, SafeEmitter.lookupList]
  | cons f rest ih =>
    rw [registerAll_cons]
    have hs : (lookupEvent ((s.on e f)).listeners e).isSome := by
      rw [lookup_on_self]
      rfl
    rw [ih _ hs, lookupList_on_self]
    simp

theorem runListeners_noThrow {V E L : Type} (fs : List L) (a b c : Option V) :
    runListeners (noThrow V E L) fs a b c = (fs.map fun f => ⟨f, none, a, b, c⟩, none) := by
  induction fs with
  | nil => rfl
  | cons f rest ih => simp [runListeners, noThrow, ih]

theorem runListeners_ok_prefixed {V E L : Type}
    (call : L → Option V → Option V → Option V → Except E Unit)
    (pre fs : List L) (a b c : Option V)
    (hpre : ∀ f ∈ pre, call f a b c = Except.ok ()) :
    runListeners call (pre ++ fs) a b c
      = ((pre.map fun f => ⟨f, none, a, b, c⟩) ++ (runListeners call fs a b c).1,
         (runListeners call fs a b c).2) := by
  induction pre with
  | nil => simp
  | cons f rest ih =>
    have hf : call f a b c = Except.ok () := hpre f (List.mem_cons_self f rest)
    have hrest : ∀ g ∈ rest, call g a b c = Except.ok () :=
      fun g hg => hpre g (List.mem_cons_of_mem f hg)
    simp [runListeners, hf, ih hrest]

theorem emit_registerAll_noThrow {V E L : Type} (e : String) (fs : List L)
    (a b c : Option V) :
    ((emptyEmitter L).registerAll e fs).emit (noThrow V E L) e a b c
      = (fs.map fun f => ⟨f, none, a, b, c⟩, none) := by
  cases fs with
  | nil => rfl
  | cons f rest =>
    rw [registerAll_cons]
    have hs : (lookupEvent ((emptyEmitter L).on e f).listeners e).isSome := by
      rw [lookup_on_self]
      rfl
    have hl := lookup_registerAll ((emptyEmitter L).on e f) e rest hs
    rw [lookupList_on_self] at hl
    have hempty : (emptyEmitter L).lookupList e = [] := rfl
    rw [hempty] at hl
    simp only [SafeEmitter.emit, hl, List.nil_append, List.singleton_append]
    exact runListeners_noThrow (f :: rest) a b c

/-- C1: registering `f1, f2, …` for `e` and then emitting `e` with arguments
`(a, b, c)` invokes exactly the registered listeners, once per registration,
in registration order, each as `listener(a, b, c)` — the invocation list is
literally the registration list paired with the given arguments, and no error
arises. -/
theorem emit_invokes_registered_in_order {V E L : Type} (e : String) (fs : List L)
    (a b c : Option V) :
    ((emptyEmitter L).registerAll e fs).emit (noThrow V E L) e a b c
      = (fs.map fun f => ⟨f, none, a, b, c⟩, none) :=
  emit_registerAll_noThrow e fs a b c

/-- C2: if every listener before `g` in the sequence registered for `e`
returns normally and `g` throws `err`, then `emit` performs exactly the
invocations up to and including `g` — no listener registered after `g` is
invoked in that call — and the error propagates out of `emit`. -/
theorem emit_error_propagates_and_aborts {V E L : Type} (s : SafeEmitter L)
    (call : L → Option V → Option V → Option V → Except E Unit)
    (e : String) (pre : List L) (g : L) (post : List L) (a b c : Option V) (err : E)
    (hl : lookupEvent s.listeners e = some (pre ++ g :: post))
    (hpre : ∀ f ∈ pre, call f a b c = Except.ok ())
    (hg : call g a b c = Except.error err) :
    s.emit call e a b c
      = ((pre.map fun f => ⟨f, none, a, b, c⟩) ++ [⟨g, none, a, b, c⟩], some err) := by
  simp only [SafeEmitter.emit, hl]
  rw [runListeners_ok_prefixed call pre (g :: post) a b c hpre]
  simp [runListeners, hg]

theorem emit_error_propagates_and_aborts_witness :
    (((emptyEmitter Nat).on "e" 1).on "e" 2).emit
        (fun f _ _ _ => if f = 1 then Except.error 7 else Except.ok ()) "e"
        (some 0) none none
      = ([⟨1, none, some 0, none, none⟩], some 7) :=
  emit_error_propagates_and_aborts (((emptyEmitter Nat).on "e" 1).on "e" 2)
    (fun f _ _ _ => if f = 1 then Except.error 7 else Except.ok ()) "e" [] 1 [2]
    (some 0) none none 7 (by decide) (by simp) rfl

/-- C3: emitting an event that has no registered listeners (its key is
absent, as on a fresh emitter) returns normally with no error, performs no
invocation, and leaves the emitter state unchanged. -/
theorem emit_without_listeners_is_noop {V E L : Type} (s : SafeEmitter L)
    (call : L → Option V → Option V → Option V → Except E Unit)
    (beh : L → List (String × L)) (e : String) (a b c : Option V)
    (h : lookupEvent s.listeners e = none) :
    s.emit call e a b c = ([], none) ∧ s.emitLive beh e = (s, []) := by
  constructor
  · simp [SafeEmitter.emit, h]
  · simp [SafeEmitter.emitLive, h]

theorem emit_without_listeners_is_noop_witness :
    (emptyEmitter Nat).emit (noThrow Nat Nat Nat) "Unregistered" none none none = ([], none) ∧
    (emptyEmitter Nat).emitLive (fun _ => []) "Unregistered" = (emptyEmitter Nat, []) :=
  emit_without_listeners_is_noop (emptyEmitter Nat) (noThrow Nat Nat Nat) (fun _ => [])
    "Unregistered" none none none (by decide)

/-- C6: emitting `"Program"` with a single argument `nodeX` after registering
`f` then `g` invokes `f` and then `g`, exactly once each, both receiving
`nodeX` as the first argument and `undefined` (`none`) for the two omitted
positions. -/
theorem emit_missing_args_are_undefined {V E L : Type} (x : V) (f g : L) :
    (((emptyEmitter L).on "Program" f).on "Program" g).emit (noThrow V E L) "Program"
        (some x) none none
      = ([⟨f, none, some x, none, none⟩, ⟨g, none, some x, none, none⟩], none) :=
  rfl

/-- C5: over the invocations an emit performs, the number of invocations of a
given listener `f` equals the number of times `f` was registered for the
emitted event — so registering `f` twice makes each emit invoke it exactly
twice. -/
theorem emit_invokes_once_per_registration {V E L : Type} [DecidableEq L] (e : String)
    (fs : List L) (f : L) (a b c : Option V) :
    (((emptyEmitter L).registerAll e fs).emit (noThrow V E L) e a b c).1.countP
        (fun inv => decide (inv.listener = f))
      = fs.countP (fun g => decide (g = f)) := by
  rw [emit_registerAll_noThrow, List.countP_map]
  rfl

theorem emit_invokes_once_per_registration_witness :
    (((emptyEmitter Nat).registerAll "x" [5, 5]).emit (noThrow Nat Nat Nat) "x"
        none none none).1.countP (fun inv => decide (inv.listener = 5)) = 2 :=
  (emit_invokes_once_per_registration "x" [5, 5] 5 none none none).trans (by decide)

theorem registryExtends_refl {L : Type} (s : SafeEmitter L) : RegistryExtends s s :=
  ⟨⟨[], by simp⟩, fun e => ⟨[], by simp⟩⟩

theorem registryExtends_trans {L : Type} (s₁ s₂ s₃ : SafeEmitter L)
    (h12 : RegistryExtends s₁ s₂) (h23 : RegistryExtends s₂ s₃) :
    RegistryExtends s₁ s₃ := by
  obtain ⟨⟨ks12, hk12⟩, hl12⟩ := h12
  obtain ⟨⟨ks23, hk23⟩, hl23⟩ := h23
  refine ⟨⟨ks12 ++ ks23, by rw [hk23, hk12, List.append_assoc]⟩, fun e => ?_⟩
  obtain ⟨t1, ht1⟩ := hl12 e
  obtain ⟨t2, ht2⟩ := hl23 e
  exact ⟨t1 ++ t2, by rw [ht2, ht1, List.append_assoc]⟩

theorem registryExtends_on {L : Type} (s : SafeEmitter L) (e : String) (f : L) :
    RegistryExtends s (s.on e f) := by
  constructor
  · cases ho : lookupEvent s.listeners e with
    | none =>
      exact ⟨[e], by simp [SafeEmitter.on, keys_appendListener, ho]⟩
    | some l =>
      exact ⟨[], by simp [SafeEmitter.on, keys_appendListener, ho]⟩
  · intro e'
    by_cases h : e' = e
    · subst h
      exact ⟨[f], lookupList_on_self s e' f⟩
    · exact ⟨[], by rw [lookupList_on_ne s e e' f h, List.append_nil]⟩

theorem registryExtends_foldl {L β : Type} (step : SafeEmitter L → β → SafeEmitter L)
    (hstep : ∀ s b, RegistryExtends s (step s b)) :
    ∀ (l : List β) (s : SafeEmitter L), RegistryExtends s (l.foldl step s)
  | [], s => registryExtends_refl s
  | b :: l, s =>
    registryExtends_trans _ _ _ (hstep s b)
      (registryExtends_foldl step hstep l (step s b))

theorem registryExtends_applyRegistrations {L : Type} (regs : List (String × L))
    (s : SafeEmitter L) :
    RegistryExtends s (applyRegistrations regs s) := by
  unfold applyRegistrations
  exact registryExtends_foldl (fun st p => st.on p.1 p.2)
    (fun st p => registryExtends_on st p.1 p.2) regs s

theorem emitLive_fold_pair {L : Type} (beh : L → List (String × L)) :
    ∀ (fs : List L) (s : SafeEmitter L) (tr : List L),
      fs.foldl (fun acc f => (applyRegistrations (beh f) acc.1, acc.2 ++ [f])) (s, tr)
        = (fs.foldl (fun st f => applyRegistrations (beh f) st) s, tr ++ fs)
  | [], s, tr => by simp
  | f :: fs, s, tr => by
    simp only [List.foldl_cons]
    rw [emitLive_fold_pair beh fs (applyRegistrations (beh f) s) (tr ++ [f])]
    simp

theorem emitLive_state {L : Type} (s : SafeEmitter L) (beh : L → List (String × L))
    (e : String) :
    (s.emitLive beh e).1
      = (s.lookupList e).foldl (fun st f => applyRegistrations (beh f) st) s := by
  unfold SafeEmitter.emitLive
  cases ho : lookupEvent s.listeners e with
  | none => simp [SafeEmitter.lookupList, ho]
  | some fs => simp [SafeEmitter.lookupList, ho, emitLive_fold_pair]

theorem emitLive_trace {L : Type} (s : SafeEmitter L) (beh : L → List (String × L))
    (e : String) :
    (s.emitLive beh e).2 = s.lookupList e := by
  unfold SafeEmitter.emitLive
  cases ho : lookupEvent s.listeners e with
  | none => simp [SafeEmitter.lookupList, ho]
  | some fs => simp [SafeEmitter.lookupList, ho, emitLive_fold_pair]

theorem registryExtends_emitLive {L : Type} (s : SafeEmitter L)
    (beh : L → List (String × L)) (e : String) :
    RegistryExtends s (s.emitLive beh e).1 := by
  rw [emitLive_state]
  exact registryExtends_foldl _
    (fun st f => registryExtends_applyRegistrations (beh f) st) _ s

/-- C7: every state-changing operation only accumulates registry structure:
`on` and `emit` (the latter changing state only through the registrations its
listeners perform) never remove a key, never reorder existing keys, and only
append to each event's listener sequence, keeping the previous sequence as an
initial segment. `eventNames` is modelled as a pure read, so it changes
nothing. -/
theorem operations_only_append {L : Type} (s : SafeEmitter L) (e : String) (f : L)
    (beh : L → List (String × L)) (ev : String) :
    RegistryExtends s (s.on e f) ∧ RegistryExtends s (s.emitLive beh ev).1 :=
  ⟨registryExtends_on s e f, registryExtends_emitLive s beh ev⟩

theorem operations_only_append_witness :
    RegistryExtends (emptyEmitter Nat) ((emptyEmitter Nat).on "a" 0) ∧
    RegistryExtends (emptyEmitter Nat) (((emptyEmitter Nat).emitLive (fun _ => []) "b").1) :=
  operations_only_append (emptyEmitter Nat) "a" 0 (fun _ => []) "b"

theorem runListeners_records_only_args {V E L : Type}
    (call : L → Option V → Option V → Option V → Except E Unit) (a b c : Option V) :
    ∀ (fs : List L), ∀ inv ∈ (runListeners call fs a b c).1,
      inv = ⟨inv.listener, none, a, b, c⟩ := by
  intro fs
  induction fs with
  | nil =>
    intro inv h
    simp [runListeners] at h
  | cons f rest ih =>
    intro inv h
    simp only [runListeners] at h
    cases hc : call f a b c with
    | error err =>
      rw [hc] at h
      simp at h
      subst h
      rfl
    | ok u =>
      rw [hc] at h
      simp at h
      rcases h with h | h
      · subst h
        rfl
      · exact ih inv h

/-- C8: every invocation an `emit` performs carries `undefined` (`none`) as
its receiver — listeners are called as plain functions, with no `this` bound
to the emitter — and carries exactly the emitted arguments: the whole record
a listener observes is its own identity, an undefined receiver, and
`(a, b, c)`, so nothing in the invocation context reaches the registry or a
sibling listener. -/
theorem emit_binds_no_receiver {V E L : Type} (s : SafeEmitter L)
    (call : L → Option V → Option V → Option V → Except E Unit)
    (e : String) (a b c : Option V) :
    ∀ inv ∈ (s.emit call e a b c).1, inv = ⟨inv.listener, none, a, b, c⟩ := by
  intro inv h
  unfold SafeEmitter.emit at h
  cases ho : lookupEvent s.listeners e with
  | none =>
    rw [ho] at h
    simp at h
  | some fs =>
    rw [ho] at h
    exact runListeners_records_only_args call a b c fs inv h

theorem emit_binds_no_receiver_witness :
    (⟨0, none, some 1, none, none⟩ : Invocation Nat Nat)
      = ⟨(⟨0, none, some 1, none, none⟩ : Invocation Nat Nat).listener, none,
          some 1, none, none⟩ :=
  emit_binds_no_receiver ((emptyEmitter Nat).on "x" 0) (noThrow Nat Nat Nat) "x"
    (some 1) none none ⟨0, none, some 1, none, none⟩ (by decide)

theorem mem_lookupList_on {L : Type} (s : SafeEmitter L) (e : String) (x : L) :
    x ∈ (s.on e x).lookupList e := by
  rw [lookupList_on_self]
  simp

theorem mem_of_registryExtends {L : Type} (s s' : SafeEmitter L)
    (hext : RegistryExtends s s') (e : String) (x : L) (hx : x ∈ s.lookupList e) :
    x ∈ s'.lookupList e := by
  obtain ⟨t, ht⟩ := hext.2 e
  rw [ht]
  exact List.mem_append_left t hx

theorem mem_applyRegistrations {L : Type} :
    ∀ (regs : List (String × L)) (s : SafeEmitter L) (e : String) (x : L),
      (e, x) ∈ regs → x ∈ (applyRegistrations regs s).lookupList e := by
  intro regs
  induction regs with
  | nil =>
    intro s e x hx
    simp at hx
  | cons p rest ih =>
    intro s e x hx
    have hstep : applyRegistrations (p :: rest) s = applyRegistrations rest (s.on p.1 p.2) :=
      rfl
    rcases List.mem_cons.mp hx with h | h
    · rw [hstep]
      have hp1 : p.1 = e := by rw [← h]
      have hp2 : p.2 = x := by rw [← h]
      rw [hp1, hp2]
      exact mem_of_registryExtends _ _ (registryExtends_applyRegistrations rest _) e x
        (mem_lookupList_on s e x)
    · rw [hstep]
      exact ih _ e x h

theorem mem_foldApply {L : Type} (beh : L → List (String × L)) (e : String) (x : L) :
    ∀ (fs : List L) (s : SafeEmitter L) (f : L), f ∈ fs → (e, x) ∈ beh f →
      x ∈ ((fs.foldl (fun st g => applyRegistrations (beh g) st) s)).lookupList e := by
  intro fs
  induction fs with
  | nil =>
    intro s f hf
    simp at hf
  | cons g rest ih =>
    intro s f hf hreg
    simp only [List.foldl_cons]
    rcases List.mem_cons.mp hf with h | h
    · subst h
      exact mem_of_registryExtends _ _
        (registryExtends_foldl (fun st g' => applyRegistrations (beh g') st)
          (fun st g' => registryExtends_applyRegistrations (beh g') st) rest _)
        e x (mem_applyRegistrations (beh f) s e x hreg)
    · exact ih _ f h hreg

/-- C9: `emit` iterates over the listener sequence present when it began: a
listener for `e` that is registered during the emit — here, by one of the
invoked listeners — is not invoked in that same emit call, but a subsequent
emit of `e` does invoke it. -/
theorem emit_skips_mid_emit_registrations {L : Type} (s : SafeEmitter L)
    (beh : L → List (String × L)) (e : String) (h : L)
    (hnew : h ∉ s.lookupList e)
    (hreg : ∃ f ∈ s.lookupList e, (e, h) ∈ beh f) :
    h ∉ (s.emitLive beh e).2 ∧ h ∈ ((s.emitLive beh e).1.emitLive beh e).2 := by
  constructor
  · rw [emitLive_trace]
    exact hnew
  · rw [emitLive_trace, emitLive_state]
    obtain ⟨f, hf, hfr⟩ := hreg
    exact mem_foldApply beh e h (s.lookupList e) s f hf hfr

theorem emit_skips_mid_emit_registrations_witness :
    (1 : Nat) ∉ (((emptyEmitter Nat).on "x" 0).emitLive
        (fun f => if f = 0 then [("x", 1)] else []) "x").2 ∧
    (1 : Nat) ∈ ((((emptyEmitter Nat).on "x" 0).emitLive
        (fun f => if f = 0 then [("x", 1)] else []) "x").1.emitLive
        (fun f => if f = 0 then [("x", 1)] else []) "x").2 :=
  emit_skips_mid_emit_registrations ((emptyEmitter Nat).on "x" 0)
    (fun f => if f = 0 then [("x", 1)] else []) "x" 1 (by decide) (by decide)

/-- Every key present in the registry maps to a non-empty listener array:
`on` creates a key only together with that key's first listener. -/
def NonemptyEntries {L : Type} (s : SafeEmitter L) : Prop :=
  ∀ p ∈ s.listeners, p.2 ≠ []

theorem nonemptyEntries_empty {L : Type} : NonemptyEntries (emptyEmitter L) := by
  intro p hp
  simp [emptyEmitter] at hp

theorem nonemptyEntries_appendListener {L : Type} :
    ∀ (regs : List (String × List L)) (e : String) (f : L),
      (∀ p ∈ regs, p.2 ≠ []) → ∀ p ∈ appendListener regs e f, p.2 ≠ [] := by
  intro regs
  induction regs with
  | nil =>
    intro e f hwf p hp
    simp [appendListener] at hp
    rw [hp]
    simp
  | cons q rest ih =>
    intro e f hwf p hp
    obtain ⟨k, fs⟩ := q
    by_cases hk : k = e
    · subst hk
      simp [appendListener] at hp
      rcases hp with hp | hp
      · rw [hp]
        simp
      · exact hwf p (List.mem_cons_of_mem _ hp)
    · simp [appendListener, hk] at hp
      rcases hp with hp | hp
      · rw [hp]
        exact hwf (k, fs) (List.mem_cons_self _ _)
      · exact ih e f (fun r hr => hwf r (List.mem_cons_of_mem _ hr)) p hp

theorem nonemptyEntries_on {L : Type} (s : SafeEmitter L) (e : String) (f : L)
    (hwf : NonemptyEntries s) :
    NonemptyEntries (s.on e f) :=
  nonemptyEntries_appendListener s.listeners e f hwf

theorem nonemptyEntries_foldl {L β : Type} (step : SafeEmitter L → β → SafeEmitter L)
    (hstep : ∀ s b, NonemptyEntries s → NonemptyEntries (step s b)) :
    ∀ (l : List β) (s : SafeEmitter L), NonemptyEntries s → NonemptyEntries (l.foldl step s)
  | [], s, hs => hs
  | b :: l, s, hs =>
    nonemptyEntries_foldl step hstep l (step s b) (hstep s b hs)

theorem nonemptyEntries_applyRegistrations {L : Type} (regs : List (String × L))
    (s : SafeEmitter L) (hwf : NonemptyEntries s) :
    NonemptyEntries (applyRegistrations regs s) := by
  unfold applyRegistrations
  exact nonemptyEntries_foldl (fun st p => st.on p.1 p.2)
    (fun st p h => nonemptyEntries_on st p.1 p.2 h) regs s hwf

theorem nonemptyEntries_emitLive {L : Type} (s : SafeEmitter L)
    (beh : L → List (String × L)) (e : String) (hwf : NonemptyEntries s) :
    NonemptyEntries (s.emitLive beh e).1 := by
  rw [emitLive_state]
  exact nonemptyEntries_foldl (fun st f => applyRegistrations (beh f) st)
    (fun st f h => nonemptyEntries_applyRegistrations (beh f) st h) _ s hwf

theorem reachable_nonemptyEntries {L : Type} (s : SafeEmitter L)
    (hs : ReachableEmitter s) :
    NonemptyEntries s := by
  induction hs with
  | empty => exact nonemptyEntries_empty
  | registerStep s e f hs ih => exact nonemptyEntries_on s e f ih
  | emitStep s beh e hs ih => exact nonemptyEntries_emitLive s beh e ih

theorem lookupEvent_mem {L : Type} :
    ∀ (regs : List (String × List L)) (e : String) (fs : List L),
      lookupEvent regs e = some fs → (e, fs) ∈ regs := by
  intro regs
  induction regs with
  | nil =>
    intro e fs h
    simp [lookupEvent] at h
  | cons p rest ih =>
    intro e fs h
    obtain ⟨k, l⟩ := p
    by_cases hk : k = e
    · subst hk
      simp [lookupEvent] at h
      rw [h]
      exact List.mem_cons_self _ _
    · simp [lookupEvent, hk] at h
      exact List.mem_cons_of_mem _ (ih e fs h)

theorem mem_keys_iff_lookup {L : Type} :
    ∀ (regs : List (String × List L)) (e : String),
      e ∈ regs.map Prod.fst ↔ (lookupEvent regs e).isSome := by
  intro regs
  induction regs with
  | nil =>
    intro e
    simp [lookupEvent]
  | cons p rest ih =>
    intro e
    obtain ⟨k, l⟩ := p
    by_cases hk : k = e
    · subst hk
      simp [lookupEvent]
    · have hk' : ¬ e = k := fun hh => hk hh.symm
      simp [lookupEvent, hk, hk', ih e]

theorem mem_objectKeys {L : Type} (regs : List (String × List L)) (e : String) :
    e ∈ objectKeys regs ↔ e ∈ regs.map Prod.fst := by
  unfold objectKeys
  simp only [List.mem_append, List.mem_insertionSort, List.mem_filter]
  by_cases h : isArrayIndexKey e = true <;> simp [h]

/-- C10: in every reachable emitter state, every event name present in the
registry maps to a non-empty listener sequence, so `eventNames()` never
returns a name with zero registered listeners. -/
theorem reachable_entries_have_listeners {L : Type} (s : SafeEmitter L)
    (hs : ReachableEmitter s) :
    (∀ e fs, lookupEvent s.listeners e = some fs → fs ≠ []) ∧
    (∀ e, e ∈ s.eventNames → s.lookupList e ≠ []) := by
  have hwf : NonemptyEntries s := reachable_nonemptyEntries s hs
  refine ⟨fun e fs h => hwf (e, fs) (lookupEvent_mem s.listeners e fs h), fun e he => ?_⟩
  have hmem : e ∈ s.listeners.map Prod.fst := (mem_objectKeys s.listeners e).mp he
  have hsome := (mem_keys_iff_lookup s.listeners e).mp hmem
  obtain ⟨fs, hfs⟩ := Option.isSome_iff_exists.mp hsome
  have hne : fs ≠ [] := hwf (e, fs) (lookupEvent_mem s.listeners e fs hfs)
  simp [SafeEmitter.lookupList, hfs, hne]

theorem reachable_entries_have_listeners_witness :
    (∀ e fs, lookupEvent ((emptyEmitter Nat).on "x" 0).listeners e = some fs → fs ≠ []) ∧
    (∀ e, e ∈ ((emptyEmitter Nat).on "x" 0).eventNames →
      ((emptyEmitter Nat).on "x" 0).lookupList e ≠ []) :=
  reachable_entries_have_listeners ((emptyEmitter Nat).on "x" 0)
    (ReachableEmitter.registerStep (emptyEmitter Nat) "x" 0 ReachableEmitter.empty)

/-- C4 counterexample: after registering a listener for `"1"` and then one
for `"0"`, first-registration order of the keys is `["1", "0"]`, but
`eventNames()` — `Object.keys` on a null-prototype object — enumerates
canonical array-index keys first in ascending numeric order and returns
`["0", "1"]`, so the sequence is not first-registration order. -/
theorem eventNames_not_first_registration_order :
    (((emptyEmitter Nat).on "1" 5).on "0" 7).eventNames = ["0", "1"] ∧
    (((emptyEmitter Nat).on "1" 5).on "0" 7).listeners.map Prod.fst = ["1", "0"] ∧
    (["0", "1"] : List String) ≠ ["1", "0"] :=
  ⟨by decide, by decide, by decide⟩

/-- C4 (amended): in every reachable state, `eventNames()` returns exactly
the event names that have at least one registered listener, ordered as
JavaScript enumerates own property keys: names that are canonical array
indices come first in ascending numeric order, and all remaining names
follow in first-registration order. Formally: membership in the result is
having a non-empty listener sequence; the result is its array-index names
followed by its non-array-index names (index names precede all others); the
index segment is a permutation of the registry's array-index keys arranged
in ascending `keyLE` order; and the non-index segment equals the registry's
non-index keys in first-registration (creation) order. (`eventNames` is
modelled as a pure read of the state, so it mutates nothing.) -/
theorem eventNames_lists_registered_names {L : Type} (s : SafeEmitter L)
    (hs : ReachableEmitter s) :
    (∀ e, e ∈ s.eventNames ↔ s.lookupList e ≠ []) ∧
    s.eventNames
      = s.eventNames.filter (fun k => isArrayIndexKey k)
          ++ s.eventNames.filter (fun k => !isArrayIndexKey k) ∧
    (s.eventNames.filter (fun k => isArrayIndexKey k)).Perm
        ((s.listeners.map Prod.fst).filter (fun k => isArrayIndexKey k)) ∧
    (s.eventNames.filter (fun k => isArrayIndexKey k)).Pairwise keyLE ∧
    s.eventNames.filter (fun k => !isArrayIndexKey k)
      = (s.listeners.map Prod.fst).filter (fun k => !isArrayIndexKey k) := by
  have hwf : NonemptyEntries s := reachable_nonemptyEntries s hs
  have hB : (objectKeys s.listeners).filter (fun k => !isArrayIndexKey k)
      = (s.listeners.map Prod.fst).filter (fun k => !isArrayIndexKey k) := by
    unfold objectKeys
    rw [List.filter_append]
    have h1 : (List.insertionSort keyLE
          ((s.listeners.map Prod.fst).filter (fun k => isArrayIndexKey k))).filter
          (fun k => !isArrayIndexKey k) = [] := by
      apply List.filter_eq_nil_iff.mpr
      intro x hx
      have hx' : x ∈ (s.listeners.map Prod.fst).filter (fun k => isArrayIndexKey k) := by
        simpa [List.mem_insertionSort] using hx
      have hidx := (List.mem_filter.mp hx').2
      simp [hidx]
    rw [h1, List.nil_append]
    simp [List.filter_filter]
  have hA : (objectKeys s.listeners).filter (fun k => isArrayIndexKey k)
      = List.insertionSort keyLE
          ((s.listeners.map Prod.fst).filter (fun k => isArrayIndexKey k)) := by
    unfold objectKeys
    rw [List.filter_append]
    have h2 : ((s.listeners.map Prod.fst).filter (fun k => !isArrayIndexKey k)).filter
        (fun k => isArrayIndexKey k) = [] := by
      apply List.filter_eq_nil_iff.mpr
      intro x hx
      have hnot := (List.mem_filter.mp hx).2
      simp at hnot
      simp [hnot]
    have h3 : (List.insertionSort keyLE
          ((s.listeners.map Prod.fst).filter (fun k => isArrayIndexKey k))).filter
          (fun k => isArrayIndexKey k)
        = List.insertionSort keyLE
            ((s.listeners.map Prod.fst).filter (fun k => isArrayIndexKey k)) := by
      apply List.filter_eq_self.mpr
      intro x hx
      have hx' : x ∈ (s.listeners.map Prod.fst).filter (fun k => isArrayIndexKey k) := by
        simpa [List.mem_insertionSort] using hx
      exact (List.mem_filter.mp hx').2
    rw [h2, h3, List.append_nil]
  refine ⟨fun e => ?_, ?_, ?_, ?_, hB⟩
  · constructor
    · intro he
      have hmem : e ∈ s.listeners.map Prod.fst := (mem_objectKeys s.listeners e).mp he
      obtain ⟨fs, hfs⟩ :=
        Option.isSome_iff_exists.mp ((mem_keys_iff_lookup s.listeners e).mp hmem)
      have hne : fs ≠ [] := hwf (e, fs) (lookupEvent_mem s.listeners e fs hfs)
      simp [SafeEmitter.lookupList, hfs, hne]
    · intro hne
      cases hfs : lookupEvent s.listeners e with
      | none => simp [SafeEmitter.lookupList, hfs] at hne
      | some fs =>
        have hsome : (lookupEvent s.listeners e).isSome := by
          rw [hfs]
          rfl
        exact (mem_objectKeys s.listeners e).mpr
          ((mem_keys_iff_lookup s.listeners e).mpr hsome)
  · show objectKeys s.listeners
        = (objectKeys s.listeners).filter (fun k => isArrayIndexKey k)
            ++ (objectKeys s.listeners).filter (fun k => !isArrayIndexKey k)
    rw [hA, hB]
    rfl
  · show ((objectKeys s.listeners).filter (fun k => isArrayIndexKey k)).Perm _
    rw [hA]
    exact List.perm_insertionSort keyLE _
  · show ((objectKeys s.listeners).filter (fun k => isArrayIndexKey k)).Pairwise keyLE
    rw [hA]
    exact List.sorted_insertionSort keyLE _

theorem eventNames_lists_registered_names_witness :
    (∀ e, e ∈ (((emptyEmitter Nat).on "x" 1).on "y" 2).eventNames
        ↔ (((emptyEmitter Nat).on "x" 1).on "y" 2).lookupList e ≠ []) ∧
    ((((emptyEmitter Nat).on "x" 1).on "y" 2).eventNames
      = (((emptyEmitter Nat).on "x" 1).on "y" 2).eventNames.filter
          (fun k => isArrayIndexKey k)
          ++ (((emptyEmitter Nat).on "x" 1).on "y" 2).eventNames.filter
              (fun k => !isArrayIndexKey k)) ∧
    ((((emptyEmitter Nat).on "x" 1).on "y" 2).eventNames.filter
        (fun k => isArrayIndexKey k)).Perm
        (((((emptyEmitter Nat).on "x" 1).on "y" 2).listeners.map Prod.fst).filter
          (fun k => isArrayIndexKey k)) ∧
    ((((emptyEmitter Nat).on "x" 1).on "y" 2).eventNames.filter
        (fun k => isArrayIndexKey k)).Pairwise keyLE ∧
    ((((emptyEmitter Nat).on "x" 1).on "y" 2).eventNames.filter
        (fun k => !isArrayIndexKey k)
      = ((((emptyEmitter Nat).on "x" 1).on "y" 2).listeners.map Prod.fst).filter
          (fun k => !isArrayIndexKey k)) :=
  eventNames_lists_registered_names (((emptyEmitter Nat).on "x" 1).on "y" 2)
    (ReachableEmitter.registerStep ((emptyEmitter Nat).on "x" 1) "y" 2
      (ReachableEmitter.registerStep (emptyEmitter Nat) "x" 1 ReachableEmitter.empty))
